import Mathlib

/-!
# Verification of the freeplay-skills secret-redaction and batching utilities

This file is a shallow embedding, in Lean 4, of the Python sources

  * `scripts/secrets.py`            (SecretString, `_SECRET_PATTERNS`,
                                     `redact_secrets`, `safe_error_message`)
  * `dataset-management/scripts/batch_operations.py`
                                    (`get_freeplay_config`,
                                     `batch_create_test_cases`,
                                     `batch_delete_test_cases`)
  * `dataset-management/scripts/import_testcases.py`
                                    (`batch_upload`, the environment checks
                                     of `main`)

together with theorems settling the specification claims about them.

Strings are modelled as `List Char` (Python `str` is a sequence of Unicode
scalar values, as is Lean's `String.data`).  The six regular expressions of
`_SECRET_PATTERNS` are each of the shape

    (literal-and-separators)  token-class+       replaced by   \1[REDACTED]

i.e. a captured prefix followed by a greedy non-empty run of characters from
a class, where every alternative of the prefix (an optional quote, an
optional `_`/`-`, a greedy `\s*`) is *committed*: whenever the optional
branch can consume a character, the branch that does not consume it can
never lead to a match (the character is not whitespace, not `:`/`=`, and not
in the token class), so Python's backtracking collapses to the deterministic
left-to-right scan implemented below.  `re.IGNORECASE` is modelled by
ASCII lowercasing of the subject character before comparison with the
(lowercase) pattern literal.  `re.sub` scans left to right, replaces each
non-overlapping match and resumes immediately after it; `subFuel` below
implements exactly that scan (the fuel argument only makes the recursion
structural; `subFuel_congr` shows any sufficient fuel gives the same result).
-/

/-- Python `\s` (ASCII part): the whitespace characters recognised by the
regex module on the strings involved here. -/
def isSpaceCh (c : Char) : Bool :=
  c = ' ' || c = '\t' || c = '\n' || c = '\r' || c = '\x0b' || c = '\x0c'

/-- The token class `[A-Za-z0-9_\-\.]` of patterns 1, 3, 4, 5. -/
def isTokCh (c : Char) : Bool :=
  c.isAlpha || c.isDigit || c = '_' || c = '-' || c = '.'

/-- A quote character, `["\']` in the patterns. -/
def isQuote (c : Char) : Bool :=
  c = '"' || c = '\''

/-- The token class `[^"\'}\s]` of pattern 2 (Authorization headers). -/
def isTok2Ch (c : Char) : Bool :=
  !(isQuote c || c = '}' || isSpaceCh c)

/-- The token class `[^\s]` of pattern 6 (`FREEPLAY_API_KEY=`). -/
def isTok6Ch (c : Char) : Bool :=
  !isSpaceCh c

/-- The separator class `[:=]` of patterns 3, 4, 5. -/
def isSep (c : Char) : Bool :=
  c = ':' || c = '='

/-- Case-insensitive literal matching (the pattern literal is given in
lowercase; the subject character is ASCII-lowercased before comparison,
modelling `re.IGNORECASE`).  On success returns the consumed characters
(verbatim, original case) and the remainder. -/
def litCI : List Char → List Char → Option (List Char × List Char)
  | [], s => some ([], s)
  | _ :: _, [] => none
  | l :: ls, c :: cs =>
    if c.toLower = l then
      match litCI ls cs with
      | some (g, r) => some (c :: g, r)
      | none => none
    else none

/-- A deterministic prefix scanner: on success it splits the input into the
consumed group (to be preserved verbatim by the replacement `\1[REDACTED]`)
and the remainder. -/
def Scanner : Type := List Char → Option (List Char × List Char)

/-- A literal, e.g. `Bearer` (case-insensitive). -/
def pLit (lit : List Char) : Scanner := fun s => litCI lit s

/-- A greedy `cls*`. -/
def pWhile (f : Char → Bool) : Scanner := fun s =>
  some (s.takeWhile f, s.dropWhile f)

/-- A single mandatory character from a class, e.g. `[:=]`. -/
def pCh (f : Char → Bool) : Scanner := fun s =>
  match s with
  | [] => none
  | c :: cs => if f c then some ([c], cs) else none

/-- An optional character from a class, e.g. `["\']?`.  The choice is
committed: in every pattern below, the branch that declines an available
character can never reach a match (see the header comment). -/
def pOpt (f : Char → Bool) : Scanner := fun s =>
  match s with
  | [] => some ([], [])
  | c :: cs => if f c then some ([c], cs) else some ([], c :: cs)

/-- Sequencing of scanners, concatenating the consumed groups. -/
def pSeq (p q : Scanner) : Scanner := fun s =>
  match p s with
  | none => none
  | some (g1, r1) =>
    match q r1 with
    | none => none
    | some (g2, r2) => some (g1 ++ g2, r2)

/-- The result of matching one secret pattern at the head of a string:
the captured prefix (group 1), the non-empty secret token to be replaced,
and the rest of the string. -/
def MatchFn : Type := List Char → Option (List Char × List Char × List Char)

/-- Build the matcher for a pattern `(prefix) cls+`: run the prefix scanner,
then take the greedy non-empty token from the class. -/
def matchOf (p : Scanner) (cls : Char → Bool) : MatchFn := fun s =>
  match p s with
  | none => none
  | some (g, r) =>
    let tok := r.takeWhile cls
    if tok.isEmpty then none else some (g, tok, r.dropWhile cls)

/-- The scanner for `\s+`: one mandatory whitespace character then greedily more. -/
def pWs1 : Scanner := pSeq (pCh isSpaceCh) (pWhile isSpaceCh)

/-- Prefix of pattern 1, `(Bearer\s+)`. -/
def bearerPre : Scanner := pSeq (pLit ("bearer".data)) pWs1

/-- Prefix of pattern 2, `(Authorization["\']?\s*:\s*["\']?)`. -/
def authPre : Scanner :=
  pSeq (pLit ("authorization".data))
    (pSeq (pOpt isQuote)
      (pSeq (pWhile isSpaceCh)
        (pSeq (pCh (fun c => c = ':'))
          (pSeq (pWhile isSpaceCh) (pOpt isQuote)))))

/-- The common tail `["\']?\s*[:=]\s*["\']?` of patterns 3, 4, 5. -/
def sepTail : Scanner :=
  pSeq (pOpt isQuote)
    (pSeq (pWhile isSpaceCh)
      (pSeq (pCh isSep)
        (pSeq (pWhile isSpaceCh) (pOpt isQuote))))

/-- Prefix of pattern 3, `(api[_-]?key["\']?\s*[:=]\s*["\']?)`. -/
def apiKeyPre : Scanner :=
  pSeq (pLit ("api".data))
    (pSeq (pOpt (fun c => c = '_' || c = '-'))
      (pSeq (pLit ("key".data)) sepTail))

/-- Prefix of pattern 4, `(secret["\']?\s*[:=]\s*["\']?)`. -/
def secretPre : Scanner := pSeq (pLit ("secret".data)) sepTail

/-- Prefix of pattern 5, `(token["\']?\s*[:=]\s*["\']?)`. -/
def tokenPre : Scanner := pSeq (pLit ("token".data)) sepTail

/-- Prefix of pattern 6, `(FREEPLAY_API_KEY\s*=\s*)`. -/
def fpKeyPre : Scanner :=
  pSeq (pLit ("freeplay_api_key".data))
    (pSeq (pWhile isSpaceCh)
      (pSeq (pCh (fun c => c = '=')) (pWhile isSpaceCh)))

/-- The six entries of `_SECRET_PATTERNS`, in their listed order. -/
inductive Pat where
  | bearer | auth | apiKey | secretKw | tokenKw | fpKey
deriving DecidableEq

/-- The match function of each pattern (its anchored-at-head semantics). -/
def Pat.matchAt : Pat → MatchFn
  | .bearer => matchOf bearerPre isTokCh
  | .auth => matchOf authPre isTok2Ch
  | .apiKey => matchOf apiKeyPre isTokCh
  | .secretKw => matchOf secretPre isTokCh
  | .tokenKw => matchOf tokenPre isTokCh
  | .fpKey => matchOf fpKeyPre isTok6Ch

/-- The table `_SECRET_PATTERNS` in source order. -/
def patList : List Pat := [.bearer, .auth, .apiKey, .secretKw, .tokenKw, .fpKey]

/-- The replacement text inserted for every matched secret token. -/
def redactedTxt : List Char := "[REDACTED]".data

/-- The left-to-right non-overlapping substitution performed by
`pattern.sub(r'\1[REDACTED]', text)`: at each position try the pattern; on a
match emit the captured group, emit `[REDACTED]`, and resume after the match;
otherwise copy one character and advance.  The fuel only makes the recursion
structural; any fuel `≥ length` computes the same function
(`subFuel_congr`), and `subAll` fixes fuel to the length. -/
def subFuel (m : MatchFn) : Nat → List Char → List Char
  | 0, s => s
  | _ + 1, [] => []
  | fuel + 1, c :: cs =>
    match m (c :: cs) with
    | none => c :: subFuel m fuel cs
    | some (g, _, rest) => g ++ redactedTxt ++ subFuel m fuel rest

/-- One full `pattern.sub(r'\1[REDACTED]', s)` pass for one pattern. -/
def subAll (m : MatchFn) (s : List Char) : List Char :=
  subFuel m s.length s

/-- Fold a list of patterns over a text, each applied by `sub` in order
(the `for pattern, replacement in _SECRET_PATTERNS` loop body). -/
def applyRules (ps : List Pat) (s : List Char) : List Char :=
  ps.foldl (fun acc p => subAll p.matchAt acc) s

/-- The function `redact_secrets` from `scripts/secrets.py`: apply the six patterns in
their listed order. -/
def redact_secrets (text : List Char) : List Char :=
  applyRules patList text

/-- The truncation marker `"... [truncated]"` (15 characters). -/
def truncSuffix : List Char := "... [truncated]".data

/-- The function `safe_error_message` from `scripts/secrets.py`: redact, then truncate to
`max_length` characters plus the marker when the redacted text is longer
than `max_length` (the Python default for `max_length` is 500). -/
def safe_error_message (response_text : List Char) (max_length : Nat) : List Char :=
  let redacted := redact_secrets response_text
  if redacted.length > max_length then redacted.take max_length ++ truncSuffix
  else redacted

/-- The class `SecretString` from `scripts/secrets.py`: a wrapper around an optional
raw string. -/
structure SecretString where
  value : Option (List Char)
deriving DecidableEq

/-- The accessor `SecretString.get`: the raw value, verbatim. -/
def SecretString.get (s : SecretString) : Option (List Char) := s.value

/-- Python truthiness of the wrapped `Optional[str]` (`__bool__`):
`None` and `""` are falsy. -/
def SecretString.isSet (s : SecretString) : Bool :=
  match s.value with
  | none => false
  | some v => !v.isEmpty

/-- The conversion `SecretString.__str__`: `"[REDACTED]" if self._value else ""`. -/
def SecretString.strConv (s : SecretString) : List Char :=
  if s.isSet then "[REDACTED]".data else []

/-- The conversion `SecretString.__repr__`:
`"SecretString([REDACTED])" if self._value else "SecretString(None)"`. -/
def SecretString.reprConv (s : SecretString) : List Char :=
  if s.isSet then "SecretString([REDACTED])".data else "SecretString(None)".data

/-- Whether `l₁` occurs as a contiguous prefix of `l₂`. -/
def isPre : List Char → List Char → Bool
  | [], _ => true
  | _ :: _, [] => false
  | a :: as', b :: bs => a = b && isPre as' bs

/-- Whether `needle` occurs as a contiguous substring of the second argument. -/
def containsSub (needle : List Char) : List Char → Bool
  | [] => needle.isEmpty
  | c :: cs => isPre needle (c :: cs) || containsSub needle cs

/-- Number of positions at which `needle` occurs as a substring. -/
def countSub (needle : List Char) : List Char → Nat
  | [] => if needle.isEmpty then 1 else 0
  | c :: cs => (if isPre needle (c :: cs) then 1 else 0) + countSub needle cs

/-- No match of `m` at any position of the string (`pattern.sub` leaves any
such string untouched).  This is the formal reading of a text "free of
secret-like patterns" for one pattern. -/
def noMatchB (m : MatchFn) : List Char → Bool
  | [] => (m []).isNone
  | c :: cs => (m (c :: cs)).isNone && noMatchB m cs

/-- A text free of secret-like patterns: no pattern of the table matches at
any position. -/
def matchless (s : List Char) : Bool :=
  patList.all (fun p => noMatchB p.matchAt s)

/-! ## The batching scripts

`batch_operations.py` and `import_testcases.py` are loops of sequential HTTP
calls.  The HTTP layer is modelled by an oracle `resp : Nat → HttpOutcome`
giving, for the `k`-th loop iteration (0-based), either the response
(status code, body text, and the length of the parsed `data` array used on
success) or a `requests.RequestException` with its message.  Each `print`
becomes an `OutLine` (`out` for stdout, `err` for `file=sys.stderr`), in
program order. -/

/-- One printed line: stdout or stderr. -/
inductive OutLine where
  | out (s : List Char)
  | err (s : List Char)
deriving DecidableEq

/-- Outcome of one HTTP request. -/
inductive HttpOutcome where
  | resp (status : Nat) (text : List Char) (dataCount : Nat)
  | exc (msg : List Char)
deriving DecidableEq

/-- Result of running one batch function: printed lines, the request bodies
sent (one per HTTP call, in order), the returned count, and the exit code
when the function terminates the process. -/
structure RunOut (α : Type) where
  lines : List OutLine
  sent : List (List α)
  count : Nat
  exitCode : Option Nat
deriving DecidableEq

/-- Python truthiness of `os.environ.get(...)`: `None` and `""` are falsy. -/
def envTruthy : Option (List Char) → Bool
  | none => false
  | some v => !v.isEmpty

/-- The names appended to `missing` by `get_freeplay_config`, in source
order. -/
def missingVars (key base proj : Option (List Char)) : List (List Char) :=
  (if envTruthy key then [] else [("FREEPLAY_API_KEY".data)])
    ++ (if envTruthy base then [] else [("FREEPLAY_API_BASE".data)])
    ++ (if envTruthy proj then [] else [("FREEPLAY_PROJECT_ID".data)])

/-- The message `f"Error: Missing environment variables: {', '.join(missing)}"`. -/
def missingMsg (ms : List (List Char)) : List Char :=
  ("Error: Missing environment variables: ".data) ++ List.intercalate (", ".data) ms

/-- The function `get_freeplay_config` from `batch_operations.py`: on any falsy variable,
print the joined list of missing names to stderr and `sys.exit(1)`; else
return the three values verbatim. -/
def get_freeplay_config (key base proj : Option (List Char)) :
    Except (List Char × Nat) (List Char × List Char × List Char) :=
  let ms := missingVars key base proj
  if ms.isEmpty then .ok (key.getD [], base.getD [], proj.getD [])
  else .error (missingMsg ms, 1)

/-- The count `total_batches = (len(items) + batch_size - 1) // batch_size`. -/
def totalBatches (n bs : Nat) : Nat := (n + bs - 1) / bs

/-- The slice `items[i:i+batch_size]` for loop iteration `k` (where
`i = k * batch_size`): the `k`-th chunk. -/
def chunkAt (l : List α) (bs k : Nat) : List α := (l.drop (k * bs)).take bs

/-- The chunks sent by the loop `for i in range(0, len(items), batch_size)`
(for `batch_size ≥ 1` the values of `i` are `k * batch_size` for
`k < total_batches`). -/
def chunksOf (bs : Nat) (l : List α) : List (List α) :=
  (List.range (totalBatches l.length bs)).map (chunkAt l bs)

/-- The line `f"✗ Batch {batch_num}/{total_batches} failed: {status}"`. -/
def failStatusLine (bn tb st : Nat) : List Char :=
  ("✗ Batch ".data) ++ (Nat.repr bn).data ++ ("/".data) ++ (Nat.repr tb).data
    ++ (" failed: ".data) ++ (Nat.repr st).data

/-- The line `f"✗ Batch {batch_num}/{total_batches} failed: {e}"`. -/
def failExcLine (bn tb : Nat) (msg : List Char) : List Char :=
  ("✗ Batch ".data) ++ (Nat.repr bn).data ++ ("/".data) ++ (Nat.repr tb).data
    ++ (" failed: ".data) ++ msg

/-- The line `f"  Response: {response.text}"` — the raw body, as printed by
`batch_operations.py`. -/
def respRawLine (text : List Char) : List Char :=
  ("  Response: ".data) ++ text

/-- The line `f"  Response: {safe_error_message(response.text)}"` — the sanitized
body, as printed by `import_testcases.py` (`max_length` left at its
default 500). -/
def respSafeLine (text : List Char) : List Char :=
  ("  Response: ".data) ++ safe_error_message text 500

/-- The line `f"✓ Batch {bn}/{tb}: Created {uploaded} test cases"`. -/
def okCreatedLine (bn tb u : Nat) : List Char :=
  ("✓ Batch ".data) ++ (Nat.repr bn).data ++ ("/".data) ++ (Nat.repr tb).data
    ++ (": Created ".data) ++ (Nat.repr u).data ++ (" test cases".data)

/-- The line `f"✓ Batch {bn}/{tb}: Deleted {n} test cases"`. -/
def okDeletedLine (bn tb n : Nat) : List Char :=
  ("✓ Batch ".data) ++ (Nat.repr bn).data ++ ("/".data) ++ (Nat.repr tb).data
    ++ (": Deleted ".data) ++ (Nat.repr n).data ++ (" test cases".data)

/-- The line `f"✓ Batch {bn}/{tb}: Uploaded {uploaded} test cases"`. -/
def okUploadedLine (bn tb u : Nat) : List Char :=
  ("✓ Batch ".data) ++ (Nat.repr bn).data ++ ("/".data) ++ (Nat.repr tb).data
    ++ (": Uploaded ".data) ++ (Nat.repr u).data ++ (" test cases".data)

/-- The lines printed by one iteration of the `batch_create_test_cases`
loop (empty unless `verbose`). -/
def createIterLines (tb : Nat) (verbose : Bool) (o : HttpOutcome) (bn : Nat) :
    List OutLine :=
  if verbose then
    match o with
    | .resp st text d =>
      if st = 201 then [.out (okCreatedLine bn tb d)]
      else [.err (failStatusLine bn tb st), .err (respRawLine text)]
    | .exc m => [.err (failExcLine bn tb m)]
  else []

/-- The `total_uploaded` increment of one iteration: the length of the
response's `data` array on status 201, else nothing. -/
def createIterCount (o : HttpOutcome) : Nat :=
  match o with
  | .resp st _ d => if st = 201 then d else 0
  | .exc _ => 0

/-- The function `batch_create_test_cases` from `batch_operations.py`: read the
configuration (exiting on missing variables before any request), then one
POST per chunk, accumulating prints and `total_uploaded`; failures are
reported (when `verbose`) and the loop continues. -/
def batch_create_test_cases (key base proj : Option (List Char))
    (test_cases : List α) (batch_size : Nat) (verbose : Bool)
    (resp : Nat → HttpOutcome) : RunOut α :=
  match get_freeplay_config key base proj with
  | .error (line, code) => ⟨[.err line], [], 0, some code⟩
  | .ok _ =>
    let tb := totalBatches test_cases.length batch_size
    { lines := (List.range tb).flatMap
        (fun k => createIterLines tb verbose (resp k) (k + 1))
      sent := chunksOf batch_size test_cases
      count := ((List.range tb).map (fun k => createIterCount (resp k))).sum
      exitCode := none }

/-- The lines printed by one iteration of the `batch_delete_test_cases`
loop; on status 200 the count incremented is `len(batch)`. -/
def deleteIterLines (tb : Nat) (verbose : Bool) (o : HttpOutcome)
    (bn batchLen : Nat) : List OutLine :=
  if verbose then
    match o with
    | .resp st text _ =>
      if st = 200 then [.out (okDeletedLine bn tb batchLen)]
      else [.err (failStatusLine bn tb st), .err (respRawLine text)]
    | .exc m => [.err (failExcLine bn tb m)]
  else []

/-- The `total_deleted` increment of one iteration of the delete loop. -/
def deleteIterCount (o : HttpOutcome) (batchLen : Nat) : Nat :=
  match o with
  | .resp st _ _ => if st = 200 then batchLen else 0
  | .exc _ => 0

/-- The function `batch_delete_test_cases` from `batch_operations.py`. -/
def batch_delete_test_cases (key base proj : Option (List Char))
    (test_case_ids : List α) (batch_size : Nat) (verbose : Bool)
    (resp : Nat → HttpOutcome) : RunOut α :=
  match get_freeplay_config key base proj with
  | .error (line, code) => ⟨[.err line], [], 0, some code⟩
  | .ok _ =>
    let tb := totalBatches test_case_ids.length batch_size
    { lines := (List.range tb).flatMap
        (fun k => deleteIterLines tb verbose (resp k) (k + 1)
          (chunkAt test_case_ids batch_size k).length)
      sent := chunksOf batch_size test_case_ids
      count := ((List.range tb).map
        (fun k => deleteIterCount (resp k) (chunkAt test_case_ids batch_size k).length)).sum
      exitCode := none }

/-- The lines printed by one iteration of the `batch_upload` loop of
`import_testcases.py` (always printed; the error body goes through
`safe_error_message`). -/
def uploadIterLines (tb : Nat) (o : HttpOutcome) (bn : Nat) : List OutLine :=
  match o with
  | .resp st text d =>
    if st = 201 then [.out (okUploadedLine bn tb d)]
    else [.err (failStatusLine bn tb st), .err (respSafeLine text)]
  | .exc m => [.err (failExcLine bn tb m)]

/-- The `successful_batches` increment of one upload iteration. -/
def uploadIterOk (o : HttpOutcome) : Nat :=
  match o with
  | .resp st _ _ => if st = 201 then 1 else 0
  | .exc _ => 0

/-- The function `batch_upload` from `import_testcases.py`: one POST per chunk, always
printing per-chunk results (error bodies sanitized), then three summary
lines, exiting 1 when not every test case was uploaded. -/
def batch_upload (test_cases : List α) (api_key : SecretString)
    (batch_size : Nat) (resp : Nat → HttpOutcome) : RunOut α :=
  let _headerToken := api_key.get
  let n := test_cases.length
  let tb := totalBatches n batch_size
  let total_uploaded := ((List.range tb).map (fun k => createIterCount (resp k))).sum
  let successful_batches := ((List.range tb).map (fun k => uploadIterOk (resp k))).sum
  { lines := ((List.range tb).flatMap (fun k => uploadIterLines tb (resp k) (k + 1)))
      ++ [.out (('\n' :: List.replicate 50 '=')),
          .out (("Upload complete: ".data) ++ (Nat.repr total_uploaded).data
            ++ ("/".data) ++ (Nat.repr n).data ++ (" test cases uploaded".data)),
          .out (("Successful batches: ".data) ++ (Nat.repr successful_batches).data
            ++ ("/".data) ++ (Nat.repr tb).data)]
    sent := chunksOf batch_size test_cases
    count := total_uploaded
    exitCode := if total_uploaded < n then some 1 else none }

/-- The line `f"Error: {name} environment variable not set"`. -/
def notSetLine (name : List Char) : List Char :=
  ("Error: ".data) ++ name ++ (" environment variable not set".data)

/-- The environment validation of `main` in `import_testcases.py`: three
sequential checks, each printing one line and exiting 1 at the *first*
falsy variable (the API key is wrapped in a `SecretString`, whose
truthiness is that of the wrapped value). -/
def import_env_check (key base proj : Option (List Char)) :
    Option (List Char × Nat) :=
  if !(SecretString.mk key).isSet then some (notSetLine ("FREEPLAY_API_KEY".data), 1)
  else if !envTruthy base then some (notSetLine ("FREEPLAY_API_BASE".data), 1)
  else if !envTruthy proj then some (notSetLine ("FREEPLAY_PROJECT_ID".data), 1)
  else none

/-! ## Basic list helpers -/

theorem takeWhileSat (f : Char → Bool) :
    ∀ (l : List Char) (a : Char), a ∈ l.takeWhile f → f a = true := by
  intro l
  induction l with
  | nil => intro a h; simp [List.takeWhile] at h
  | cons c cs ih =>
    intro a h
    by_cases hc : f c = true
    · rw [List.takeWhile_cons, if_pos hc] at h
      rcases List.mem_cons.mp h with h1 | h2
      · rwa [h1]
      · exact ih a h2
    · rw [List.takeWhile_cons, if_neg hc] at h
      simp at h

theorem takeWhileAll (f : Char → Bool) :
    ∀ (l : List Char), (∀ a ∈ l, f a = true) → l.takeWhile f = l := by
  intro l
  induction l with
  | nil => intro _; rfl
  | cons c cs ih =>
    intro h
    rw [List.takeWhile_cons, if_pos (h c (List.mem_cons_self c cs))]
    rw [ih (fun a ha => h a (List.mem_cons_of_mem c ha))]

theorem dropWhileHeadFalse (f : Char → Bool) :
    ∀ (l : List Char) (d : Char) (r : List Char),
      l.dropWhile f = d :: r → f d = false := by
  intro l
  induction l with
  | nil => intro d r h; simp [List.dropWhile] at h
  | cons c cs ih =>
    intro d r h
    by_cases hc : f c = true
    · rw [List.dropWhile_cons, if_pos hc] at h
      exact ih d r h
    · rw [List.dropWhile_cons, if_neg hc] at h
      cases h
      exact Bool.eq_false_iff.mpr hc

theorem takeWhileAppendAll (f : Char → Bool) :
    ∀ (g t : List Char), (∀ a ∈ g, f a = true) →
      (g ++ t).takeWhile f = g ++ t.takeWhile f := by
  intro g
  induction g with
  | nil => intro t _; rfl
  | cons c cs ih =>
    intro t h
    rw [List.cons_append, List.takeWhile_cons, if_pos (h c (List.mem_cons_self c cs))]
    rw [ih t (fun a ha => h a (List.mem_cons_of_mem c ha)), List.cons_append]

theorem dropWhileAppendAll (f : Char → Bool) :
    ∀ (g t : List Char), (∀ a ∈ g, f a = true) →
      (g ++ t).dropWhile f = t.dropWhile f := by
  intro g
  induction g with
  | nil => intro t _; rfl
  | cons c cs ih =>
    intro t h
    rw [List.cons_append, List.dropWhile_cons, if_pos (h c (List.mem_cons_self c cs))]
    exact ih t (fun a ha => h a (List.mem_cons_of_mem c ha))

theorem dropWhileAll (f : Char → Bool) :
    ∀ (l : List Char), (∀ a ∈ l, f a = true) → l.dropWhile f = [] := by
  intro l h
  have := dropWhileAppendAll f l [] h
  simpa using this

/-! ## Soundness and locality of the scanners

`PSound p`: a successful scan splits its input.  `PLocal p`: a successful
scan is reproduced on any string agreeing with the input on the consumed
prefix plus one character of lookahead (the scanners read nothing beyond
that).  These two facts drive all reasoning about `re.sub` below. -/

def PSound (p : Scanner) : Prop :=
  ∀ s g r, p s = some (g, r) → s = g ++ r

def PLocal (p : Scanner) : Prop :=
  ∀ s g r u, p s = some (g, r) →
    u.take (g.length + 1) = s.take (g.length + 1) →
    p u = some (g, u.drop g.length)

theorem litCI_sound :
    ∀ (lit s : List Char) (g r : List Char),
      litCI lit s = some (g, r) → s = g ++ r := by
  intro lit
  induction lit with
  | nil =>
    intro s g r h
    simp only [litCI] at h
    cases h
    rfl
  | cons l ls ih =>
    intro s g r h
    cases s with
    | nil => simp [litCI] at h
    | cons c cs =>
      simp only [litCI] at h
      by_cases hc : c.toLower = l
      · rw [if_pos hc] at h
        cases hrec : litCI ls cs with
        | none => rw [hrec] at h; simp at h
        | some gr =>
          rw [hrec] at h
          obtain ⟨g', r'⟩ := gr
          simp at h
          obtain ⟨hg, hr⟩ := h
          rw [← hg, ← hr, ih cs g' r' hrec]
          rfl
      · rw [if_neg hc] at h; simp at h

theorem litCI_replay :
    ∀ (lit s g r : List Char),
      litCI lit s = some (g, r) →
      ∀ t, litCI lit (g ++ t) = some (g, t) := by
  intro lit
  induction lit with
  | nil =>
    intro s g r h t
    simp only [litCI] at h
    cases h
    rfl
  | cons l ls ih =>
    intro s g r h t
    cases s with
    | nil => simp [litCI] at h
    | cons c cs =>
      simp only [litCI] at h
      by_cases hc : c.toLower = l
      · rw [if_pos hc] at h
        cases hrec : litCI ls cs with
        | none => rw [hrec] at h; simp at h
        | some gr =>
          rw [hrec] at h
          obtain ⟨g', r'⟩ := gr
          simp at h
          obtain ⟨hg, hr⟩ := h
          subst hg
          rw [List.cons_append]
          simp only [litCI, if_pos hc]
          rw [ih cs g' r' hrec t]
      · rw [if_neg hc] at h; simp at h

theorem psound_pLit (lit : List Char) : PSound (pLit lit) := by
  intro s g r h
  exact litCI_sound lit s g r h

theorem psound_pWhile (f : Char → Bool) : PSound (pWhile f) := by
  intro s g r h
  simp only [pWhile] at h
  cases h
  exact (List.takeWhile_append_dropWhile f s).symm

theorem psound_pCh (f : Char → Bool) : PSound (pCh f) := by
  intro s g r h
  cases s with
  | nil => simp [pCh] at h
  | cons c cs =>
    simp only [pCh] at h
    by_cases hc : f c = true
    · rw [if_pos hc] at h
      cases h
      rfl
    · rw [if_neg hc] at h; simp at h

theorem psound_pOpt (f : Char → Bool) : PSound (pOpt f) := by
  intro s g r h
  cases s with
  | nil => simp only [pOpt] at h; cases h; rfl
  | cons c cs =>
    simp only [pOpt] at h
    by_cases hc : f c = true
    · rw [if_pos hc] at h; cases h; rfl
    · rw [if_neg hc] at h; cases h; rfl

theorem psound_pSeq {p q : Scanner} (hp : PSound p) (hq : PSound q) :
    PSound (pSeq p q) := by
  intro s g r h
  cases h1 : p s with
  | none => simp [pSeq, h1] at h
  | some gr1 =>
    obtain ⟨g1, r1⟩ := gr1
    cases h2 : q r1 with
    | none => simp [pSeq, h1, h2] at h
    | some gr2 =>
      obtain ⟨g2, r2⟩ := gr2
      simp only [pSeq, h1, h2, Option.some.injEq, Prod.mk.injEq] at h
      obtain ⟨hg, hr⟩ := h
      rw [← hg, ← hr, hp s g1 r1 h1, hq r1 g2 r2 h2, List.append_assoc]

theorem takeAgree_mono {u s : List Char} {a b : Nat}
    (h : u.take a = s.take a) (hba : b ≤ a) : u.take b = s.take b := by
  have h2 := congrArg (List.take b) h
  rwa [List.take_take, List.take_take, inf_eq_left.mpr hba] at h2

theorem agree_decomp {u s g : List Char} {d : Char} {r : List Char}
    (hs : s = g ++ d :: r)
    (h : u.take (g.length + 1) = s.take (g.length + 1)) :
    u = g ++ d :: u.drop (g.length + 1) := by
  have h1 : s.take (g.length + 1) = g ++ [d] := by
    rw [hs]
    have := @List.take_append _ g (d :: r) 1
    simpa using this
  have h2 : u.take (g.length + 1) = g ++ [d] := by rw [h, h1]
  calc u = u.take (g.length + 1) ++ u.drop (g.length + 1) :=
        (List.take_append_drop _ _).symm
    _ = (g ++ [d]) ++ u.drop (g.length + 1) := by rw [h2]
    _ = g ++ d :: u.drop (g.length + 1) := by simp

theorem plocal_pLit (lit : List Char) : PLocal (pLit lit) := by
  intro s g r u h hagree
  have hs := litCI_sound lit s g r h
  have hg : u.take g.length = g := by
    have h' := takeAgree_mono hagree (Nat.le_succ g.length)
    rw [hs, List.take_left] at h'
    exact h'
  have hu : u = g ++ u.drop g.length := by
    conv_lhs => rw [← List.take_append_drop g.length u]
    rw [hg]
  have hrep := litCI_replay lit s g r h (u.drop g.length)
  rw [← hu] at hrep
  exact hrep

theorem plocal_pWhile (f : Char → Bool) : PLocal (pWhile f) := by
  intro s g r u h hagree
  simp only [pWhile, Option.some.injEq, Prod.mk.injEq] at h
  obtain ⟨hg, hr⟩ := h
  have hsat : ∀ a ∈ g, f a = true := fun a ha => takeWhileSat f s a (by rw [hg]; exact ha)
  cases hrr : r with
  | nil =>
    have hs : s = g := by
      rw [← List.takeWhile_append_dropWhile f s, hg, hr, hrr, List.append_nil]
    rw [hs] at hagree
    rw [List.take_of_length_le (Nat.le_succ g.length)] at hagree
    have hu : u = g := by
      rcases Nat.lt_or_ge u.length (g.length + 1) with hlt | hge
      · rw [List.take_of_length_le (by omega)] at hagree
        exact hagree
      · exfalso
        have hlen : (u.take (g.length + 1)).length = g.length + 1 := by
          rw [List.length_take, inf_eq_left.mpr hge]
        rw [hagree] at hlen
        omega
    rw [hu]
    simp only [pWhile, Option.some.injEq, Prod.mk.injEq]
    constructor
    · exact takeWhileAll f g hsat
    · rw [dropWhileAll f g hsat, List.drop_length]
  | cons d r' =>
    have hfd : f d = false := dropWhileHeadFalse f s d r' (by rw [hr, hrr])
    have hs : s = g ++ d :: r' := by
      rw [← List.takeWhile_append_dropWhile f s, hg, hr, hrr]
    have hu : u = g ++ d :: u.drop (g.length + 1) := agree_decomp hs hagree
    have ht : u.takeWhile f = g := by
      conv_lhs => rw [hu]
      rw [takeWhileAppendAll f g _ hsat, List.takeWhile_cons]
      simp [hfd]
    have hd : u.dropWhile f = u.drop g.length := by
      conv_lhs => rw [hu]
      rw [dropWhileAppendAll f g _ hsat, List.dropWhile_cons]
      simp only [hfd, Bool.false_eq_true, if_false]
      conv_rhs => rw [hu]
      rw [List.drop_left]
    simp only [pWhile, Option.some.injEq, Prod.mk.injEq]
    exact ⟨ht, hd⟩

theorem plocal_pCh (f : Char → Bool) : PLocal (pCh f) := by
  intro s g r u h hagree
  cases s with
  | nil => simp [pCh] at h
  | cons c cs =>
    simp only [pCh] at h
    by_cases hc : f c = true
    · rw [if_pos hc] at h
      simp only [Option.some.injEq, Prod.mk.injEq] at h
      obtain ⟨hg, hr⟩ := h
      subst hg
      have h1 : u.take 1 = (c :: cs).take 1 := takeAgree_mono hagree (by simp)
      have hu : u = [] ++ c :: u.drop 1 :=
        agree_decomp (show c :: cs = [] ++ c :: cs from rfl) (by simpa using h1)
      simp only [List.nil_append] at hu
      conv_lhs => rw [hu]
      simp [pCh, hc]
    · rw [if_neg hc] at h
      exact absurd h (by simp)

theorem plocal_pOpt (f : Char → Bool) : PLocal (pOpt f) := by
  intro s g r u h hagree
  cases s with
  | nil =>
    simp only [pOpt] at h
    cases h
    cases u with
    | nil => rfl
    | cons c cs => simp at hagree
  | cons c cs =>
    simp only [pOpt] at h
    by_cases hc : f c = true
    · rw [if_pos hc] at h
      simp only [Option.some.injEq, Prod.mk.injEq] at h
      obtain ⟨hg, hr⟩ := h
      subst hg
      have h1 : u.take 1 = (c :: cs).take 1 := takeAgree_mono hagree (by simp)
      have hu : u = [] ++ c :: u.drop 1 :=
        agree_decomp (show c :: cs = [] ++ c :: cs from rfl) (by simpa using h1)
      simp only [List.nil_append] at hu
      conv_lhs => rw [hu]
      simp [pOpt, hc]
    · rw [if_neg hc] at h
      simp only [Option.some.injEq, Prod.mk.injEq] at h
      obtain ⟨hg, hr⟩ := h
      subst hg
      have hu : u = [] ++ c :: u.drop 1 :=
        agree_decomp (show c :: cs = [] ++ c :: cs from rfl) (by simpa using hagree)
      simp only [List.nil_append] at hu
      conv_lhs => rw [hu]
      simp only [pOpt, hc, Bool.false_eq_true, if_false, List.drop_zero]
      rw [← hu]
      simp

theorem plocal_pSeq {p q : Scanner} (hps : PSound p) (hpl : PLocal p)
    (hql : PLocal q) : PLocal (pSeq p q) := by
  intro s g r u h hagree
  cases h1 : p s with
  | none => simp [pSeq, h1] at h
  | some gr1 =>
    obtain ⟨g1, r1⟩ := gr1
    cases h2 : q r1 with
    | none => simp [pSeq, h1, h2] at h
    | some gr2 =>
      obtain ⟨g2, r2⟩ := gr2
      simp only [pSeq, h1, h2, Option.some.injEq, Prod.mk.injEq] at h
      obtain ⟨hg, hr⟩ := h
      subst hg
      have hlen : (g1 ++ g2).length + 1 = g1.length + (g2.length + 1) := by
        rw [List.length_append]; omega
      rw [hlen] at hagree
      have hag1 : u.take (g1.length + 1) = s.take (g1.length + 1) :=
        takeAgree_mono hagree (by omega)
      have hp1 : p u = some (g1, u.drop g1.length) := hpl s g1 r1 u h1 hag1
      have hr1 : r1 = s.drop g1.length := by
        rw [hps s g1 r1 h1, List.drop_left]
      have hag2 : (u.drop g1.length).take (g2.length + 1) =
          r1.take (g2.length + 1) := by
        rw [hr1]
        have e1 : (u.take (g1.length + (g2.length + 1))).drop g1.length =
            (u.drop g1.length).take (g2.length + 1) := by
          rw [List.drop_take]; congr 1; omega
        have e2 : (s.take (g1.length + (g2.length + 1))).drop g1.length =
            (s.drop g1.length).take (g2.length + 1) := by
          rw [List.drop_take]; congr 1; omega
        rw [← e1, ← e2, hagree]
      have hq2 : q (u.drop g1.length) =
          some (g2, (u.drop g1.length).drop g2.length) :=
        hql r1 g2 r2 _ h2 hag2
      simp only [pSeq, hp1, hq2, Option.some.injEq, Prod.mk.injEq]
      constructor
      · trivial
      · rw [List.drop_drop, List.length_append]

/-! ## Soundness and locality of the six pattern matchers -/

def MSound (m : MatchFn) : Prop :=
  ∀ s g tok rest, m s = some (g, tok, rest) → s = g ++ tok ++ rest ∧ tok ≠ []

def MLocal (m : MatchFn) : Prop :=
  ∀ s g tok rest u, m s = some (g, tok, rest) →
    u.take (g.length + 1) = s.take (g.length + 1) →
    ∃ tok' rest', m u = some (g, tok', rest')

theorem msound_matchOf {p : Scanner} {cls : Char → Bool} (hp : PSound p) :
    MSound (matchOf p cls) := by
  intro s g tok rest h
  cases h1 : p s with
  | none => simp [matchOf, h1] at h
  | some gr =>
    obtain ⟨g', r⟩ := gr
    simp only [matchOf, h1] at h
    by_cases he : (r.takeWhile cls).isEmpty = true
    · rw [if_pos he] at h; simp at h
    · rw [if_neg he] at h
      simp only [Option.some.injEq, Prod.mk.injEq] at h
      obtain ⟨hg, htok, hrest⟩ := h
      subst hg
      constructor
      · rw [hp s g' r h1, ← htok, ← hrest, List.append_assoc,
          List.takeWhile_append_dropWhile]
      · rw [← htok]
        intro hnil
        rw [hnil] at he
        simp at he

theorem mlocal_matchOf {p : Scanner} {cls : Char → Bool}
    (hp : PSound p) (hl : PLocal p) : MLocal (matchOf p cls) := by
  intro s g tok rest u h hagree
  cases h1 : p s with
  | none => simp [matchOf, h1] at h
  | some gr =>
    obtain ⟨g', r⟩ := gr
    simp only [matchOf, h1] at h
    by_cases he : (r.takeWhile cls).isEmpty = true
    · rw [if_pos he] at h; simp at h
    · rw [if_neg he] at h
      simp only [Option.some.injEq, Prod.mk.injEq] at h
      obtain ⟨hg, htok, hrest⟩ := h
      subst hg
      obtain ⟨d, r', hr⟩ : ∃ d r', r = d :: r' := by
        cases r with
        | nil => simp at he
        | cons d r' => exact ⟨d, r', rfl⟩
      have hd : cls d = true := by
        by_contra hcd
        rw [hr, List.takeWhile_cons, if_neg hcd] at he
        simp at he
      have hs : s = g' ++ d :: r' := by rw [hp s g' r h1, hr]
      have hp1 : p u = some (g', u.drop g'.length) := hl s g' r u h1 hagree
      have hu : u = g' ++ d :: u.drop (g'.length + 1) := agree_decomp hs hagree
      have hud : u.drop g'.length = d :: u.drop (g'.length + 1) := by
        conv_lhs => rw [hu]
        rw [List.drop_left]
      refine ⟨(u.drop g'.length).takeWhile cls, (u.drop g'.length).dropWhile cls, ?_⟩
      have hne : ¬((u.drop g'.length).takeWhile cls).isEmpty = true := by
        rw [hud, List.takeWhile_cons, if_pos hd]
        simp
      simp only [matchOf, hp1]
      rw [if_neg hne]

theorem pWs1_sound : PSound pWs1 :=
  psound_pSeq (psound_pCh _) (psound_pWhile _)

theorem pWs1_local : PLocal pWs1 :=
  plocal_pSeq (psound_pCh _) (plocal_pCh _) (plocal_pWhile _)

theorem bearerPre_sound : PSound bearerPre :=
  psound_pSeq (psound_pLit _) pWs1_sound

theorem bearerPre_local : PLocal bearerPre :=
  plocal_pSeq (psound_pLit _) (plocal_pLit _) pWs1_local

theorem authPre_sound : PSound authPre :=
  psound_pSeq (psound_pLit _)
    (psound_pSeq (psound_pOpt _)
      (psound_pSeq (psound_pWhile _)
        (psound_pSeq (psound_pCh _)
          (psound_pSeq (psound_pWhile _) (psound_pOpt _)))))

theorem authPre_local : PLocal authPre :=
  plocal_pSeq (psound_pLit _) (plocal_pLit _)
    (plocal_pSeq (psound_pOpt _) (plocal_pOpt _)
      (plocal_pSeq (psound_pWhile _) (plocal_pWhile _)
        (plocal_pSeq (psound_pCh _) (plocal_pCh _)
          (plocal_pSeq (psound_pWhile _) (plocal_pWhile _) (plocal_pOpt _)))))

theorem sepTail_sound : PSound sepTail :=
  psound_pSeq (psound_pOpt _)
    (psound_pSeq (psound_pWhile _)
      (psound_pSeq (psound_pCh _)
        (psound_pSeq (psound_pWhile _) (psound_pOpt _))))

theorem sepTail_local : PLocal sepTail :=
  plocal_pSeq (psound_pOpt _) (plocal_pOpt _)
    (plocal_pSeq (psound_pWhile _) (plocal_pWhile _)
      (plocal_pSeq (psound_pCh _) (plocal_pCh _)
        (plocal_pSeq (psound_pWhile _) (plocal_pWhile _) (plocal_pOpt _))))

theorem apiKeyPre_sound : PSound apiKeyPre :=
  psound_pSeq (psound_pLit _)
    (psound_pSeq (psound_pOpt _) (psound_pSeq (psound_pLit _) sepTail_sound))

theorem apiKeyPre_local : PLocal apiKeyPre :=
  plocal_pSeq (psound_pLit _) (plocal_pLit _)
    (plocal_pSeq (psound_pOpt _) (plocal_pOpt _)
      (plocal_pSeq (psound_pLit _) (plocal_pLit _) sepTail_local))

theorem secretPre_sound : PSound secretPre :=
  psound_pSeq (psound_pLit _) sepTail_sound

theorem secretPre_local : PLocal secretPre :=
  plocal_pSeq (psound_pLit _) (plocal_pLit _) sepTail_local

theorem tokenPre_sound : PSound tokenPre :=
  psound_pSeq (psound_pLit _) sepTail_sound

theorem tokenPre_local : PLocal tokenPre :=
  plocal_pSeq (psound_pLit _) (plocal_pLit _) sepTail_local

theorem fpKeyPre_sound : PSound fpKeyPre :=
  psound_pSeq (psound_pLit _)
    (psound_pSeq (psound_pWhile _)
      (psound_pSeq (psound_pCh _) (psound_pWhile _)))

theorem fpKeyPre_local : PLocal fpKeyPre :=
  plocal_pSeq (psound_pLit _) (plocal_pLit _)
    (plocal_pSeq (psound_pWhile _) (plocal_pWhile _)
      (plocal_pSeq (psound_pCh _) (plocal_pCh _) (plocal_pWhile _)))

theorem patSound : ∀ pt : Pat, MSound pt.matchAt := by
  intro pt
  cases pt with
  | bearer => exact msound_matchOf bearerPre_sound
  | auth => exact msound_matchOf authPre_sound
  | apiKey => exact msound_matchOf apiKeyPre_sound
  | secretKw => exact msound_matchOf secretPre_sound
  | tokenKw => exact msound_matchOf tokenPre_sound
  | fpKey => exact msound_matchOf fpKeyPre_sound

theorem patLocal : ∀ pt : Pat, MLocal pt.matchAt := by
  intro pt
  cases pt with
  | bearer => exact mlocal_matchOf bearerPre_sound bearerPre_local
  | auth => exact mlocal_matchOf authPre_sound authPre_local
  | apiKey => exact mlocal_matchOf apiKeyPre_sound apiKeyPre_local
  | secretKw => exact mlocal_matchOf secretPre_sound secretPre_local
  | tokenKw => exact mlocal_matchOf tokenPre_sound tokenPre_local
  | fpKey => exact mlocal_matchOf fpKeyPre_sound fpKeyPre_local

/-! ## Properties of the substitution scan -/

theorem subFuel_nil (m : MatchFn) (fuel : Nat) : subFuel m fuel [] = [] := by
  cases fuel <;> rfl

theorem subFuel_congr (m : MatchFn) (hm : MSound m) :
    ∀ (n : Nat) (s : List Char) (f1 f2 : Nat),
      s.length ≤ n → s.length ≤ f1 → s.length ≤ f2 →
      subFuel m f1 s = subFuel m f2 s := by
  intro n
  induction n with
  | zero =>
    intro s f1 f2 hn _ _
    have : s = [] := List.length_eq_zero.mp (Nat.le_zero.mp hn)
    rw [this, subFuel_nil, subFuel_nil]
  | succ n ih =>
    intro s f1 f2 hn h1 h2
    cases s with
    | nil => rw [subFuel_nil, subFuel_nil]
    | cons c cs =>
      cases f1 with
      | zero => simp at h1
      | succ f1' =>
        cases f2 with
        | zero => simp at h2
        | succ f2' =>
          cases hmm : m (c :: cs) with
          | none =>
            have hcs : cs.length ≤ n := by
              simp only [List.length_cons] at hn; omega
            simp only [subFuel, hmm]
            rw [ih cs f1' f2' hcs (by simp only [List.length_cons] at h1; omega)
              (by simp only [List.length_cons] at h2; omega)]
          | some gtr =>
            obtain ⟨g, tok, rest⟩ := gtr
            obtain ⟨hsplit, htok⟩ := hm _ _ _ _ hmm
            have hlen : rest.length ≤ cs.length := by
              have := congrArg List.length hsplit
              simp only [List.length_cons, List.length_append] at this
              cases tok with
              | nil => exact absurd rfl htok
              | cons _ _ => simp only [List.length_cons] at this; omega
            have hn' : rest.length ≤ n := by
              simp only [List.length_cons] at hn; omega
            simp only [subFuel, hmm]
            rw [ih rest f1' f2' hn'
              (by simp only [List.length_cons] at h1; omega)
              (by simp only [List.length_cons] at h2; omega)]

theorem subAll_nil (m : MatchFn) : subAll m [] = [] := rfl

theorem subAll_cons_none {m : MatchFn} {c : Char} {cs : List Char}
    (h : m (c :: cs) = none) : subAll m (c :: cs) = c :: subAll m cs := by
  simp only [subAll, List.length_cons, subFuel, h]

theorem subAll_cons_some {m : MatchFn} (hm : MSound m) {c : Char}
    {cs g tok rest : List Char} (h : m (c :: cs) = some (g, tok, rest)) :
    subAll m (c :: cs) = g ++ redactedTxt ++ subAll m rest := by
  obtain ⟨hsplit, htok⟩ := hm _ _ _ _ h
  have hlen : rest.length ≤ cs.length := by
    have := congrArg List.length hsplit
    simp only [List.length_cons, List.length_append] at this
    cases tok with
    | nil => exact absurd rfl htok
    | cons _ _ => simp only [List.length_cons] at this; omega
  simp only [subAll, List.length_cons, subFuel, h]
  rw [subFuel_congr m hm cs.length rest cs.length rest.length hlen hlen (Nat.le_refl _)]

theorem noMatchB_drop {m : MatchFn} :
    ∀ (s : List Char), noMatchB m s = true → ∀ i, m (s.drop i) = none := by
  intro s
  induction s with
  | nil =>
    intro h i
    simp only [noMatchB] at h
    rw [List.drop_nil]
    exact Option.isNone_iff_eq_none.mp h
  | cons c cs ih =>
    intro h i
    simp only [noMatchB, Bool.and_eq_true] at h
    cases i with
    | zero => exact Option.isNone_iff_eq_none.mp h.1
    | succ i' => rw [List.drop_succ_cons]; exact ih h.2 i'

theorem subAll_noMatch {m : MatchFn} :
    ∀ (s : List Char), noMatchB m s = true → subAll m s = s := by
  intro s
  induction s with
  | nil => intro _; rfl
  | cons c cs ih =>
    intro h
    simp only [noMatchB, Bool.and_eq_true] at h
    rw [subAll_cons_none (Option.isNone_iff_eq_none.mp h.1), ih h.2]

theorem redactedTxt_ne_nil : redactedTxt ≠ [] := by decide

/-- The key preservation lemma: if every match of `m` inside `s` has its
captured prefix reaching at least to position `k` (so the replaced token
lies wholly beyond `k`), then the substitution leaves the first `k`
characters untouched and cannot shorten the string to `≤ k` characters. -/
theorem subAll_take_bound {m : MatchFn} (hm : MSound m) :
    ∀ (s : List Char) (k : Nat),
      (∀ i g tok rest, i < k → m (s.drop i) = some (g, tok, rest) →
        k ≤ i + g.length) →
      (subAll m s).take k = s.take k ∧
        (k < s.length → k < (subAll m s).length) := by
  intro s
  induction s with
  | nil =>
    intro k _
    refine ⟨rfl, ?_⟩
    intro h
    simp at h
  | cons c cs ih =>
    intro k hyp
    cases hmm : m (c :: cs) with
    | none =>
      rw [subAll_cons_none hmm]
      cases k with
      | zero => exact ⟨by simp, fun _ => by simp⟩
      | succ k' =>
        have hyp' : ∀ i g tok rest, i < k' → m (cs.drop i) = some (g, tok, rest) →
            k' ≤ i + g.length := by
          intro i g tok rest hik hmi
          have := hyp (i + 1) g tok rest (by omega)
            (by rw [List.drop_succ_cons]; exact hmi)
          omega
        obtain ⟨hT, hL⟩ := ih k' hyp'
        constructor
        · rw [List.take_succ_cons, List.take_succ_cons, hT]
        · intro hlen
          simp only [List.length_cons] at hlen ⊢
          have := hL (by omega)
          omega
    | some gtr =>
      obtain ⟨g, tok, rest⟩ := gtr
      rw [subAll_cons_some hm hmm]
      obtain ⟨hsplit, htok⟩ := hm _ _ _ _ hmm
      cases k with
      | zero =>
        refine ⟨by simp, fun _ => ?_⟩
        simp only [List.length_append]
        have : 0 < redactedTxt.length := by decide
        omega
      | succ k' =>
        have hg : k' + 1 ≤ g.length := by
          have := hyp 0 g tok rest (by omega) (by simpa using hmm)
          omega
        constructor
        · rw [List.append_assoc, List.take_append_of_le_length hg, hsplit,
            List.append_assoc, List.take_append_of_le_length hg]
        · intro _
          simp only [List.length_append]
          have : 0 < redactedTxt.length := by decide
          omega

theorem hyp_of_matchless {m : MatchFn} (hml : MLocal m)
    {x z : List Char} {k : Nat}
    (hx : noMatchB m x = true) (hk : k ≤ x.length)
    (hagree : z.take k = x.take k) :
    ∀ i g tok rest, i < k → m (z.drop i) = some (g, tok, rest) →
      k ≤ i + g.length := by
  intro i g tok rest hik hmz
  by_contra hlt
  push_neg at hlt
  have hsub : i + (g.length + 1) ≤ k := by omega
  have htk : z.take (i + (g.length + 1)) = x.take (i + (g.length + 1)) :=
    takeAgree_mono hagree hsub
  have hag : (x.drop i).take (g.length + 1) = (z.drop i).take (g.length + 1) := by
    have e1 : (z.take (i + (g.length + 1))).drop i = (z.drop i).take (g.length + 1) := by
      rw [List.drop_take]; congr 1; omega
    have e2 : (x.take (i + (g.length + 1))).drop i = (x.drop i).take (g.length + 1) := by
      rw [List.drop_take]; congr 1; omega
    rw [← e2, ← e1, htk]
  obtain ⟨tok', rest', hmx⟩ := hml (z.drop i) g tok rest (x.drop i) hmz hag
  rw [noMatchB_drop x hx i] at hmx
  exact Option.noConfusion hmx

theorem applyRules_cons (p : Pat) (ps : List Pat) (s : List Char) :
    applyRules (p :: ps) s = applyRules ps (subAll p.matchAt s) := rfl

theorem applyRules_noMatch :
    ∀ (ps : List Pat) (s : List Char),
      (∀ p ∈ ps, noMatchB p.matchAt s = true) → applyRules ps s = s := by
  intro ps
  induction ps with
  | nil => intro s _; rfl
  | cons p ps ih =>
    intro s h
    rw [applyRules_cons, subAll_noMatch s (h p (List.mem_cons_self p ps))]
    exact ih s (fun q hq => h q (List.mem_cons_of_mem p hq))

theorem applyRules_take {x : List Char} {k : Nat}
    (hx : matchless x = true) (hk : k ≤ x.length) :
    ∀ (ps : List Pat) (z : List Char), (∀ p ∈ ps, p ∈ patList) →
      z.take k = x.take k → k < z.length →
      (applyRules ps z).take k = x.take k ∧ k < (applyRules ps z).length := by
  have hall : ∀ q ∈ patList, noMatchB q.matchAt x = true := List.all_eq_true.mp hx
  intro ps
  induction ps with
  | nil => intro z _ hzt hzl; exact ⟨hzt, hzl⟩
  | cons p ps ih =>
    intro z hmem hzt hzl
    have hpm : noMatchB p.matchAt x = true := hall p (hmem p (List.mem_cons_self p ps))
    have hyp := hyp_of_matchless (patLocal p) hpm hk hzt
    obtain ⟨hT, hL⟩ := subAll_take_bound (patSound p) z k hyp
    have hzt' : (subAll p.matchAt z).take k = x.take k := by rw [hT, hzt]
    rw [applyRules_cons]
    exact ih (subAll p.matchAt z)
      (fun q hq => hmem q (List.mem_cons_of_mem p hq)) hzt' (hL hzl)

theorem redact_matchless {x : List Char} (hx : matchless x = true) :
    redact_secrets x = x :=
  applyRules_noMatch patList x (List.all_eq_true.mp hx)

/-! ## Properties of the batching loop -/

theorem totalBatches_zero {bs : Nat} (hbs : 1 ≤ bs) : totalBatches 0 bs = 0 := by
  unfold totalBatches
  exact Nat.div_eq_of_lt (by omega)

theorem totalBatches_succ {n bs : Nat} (hbs : 1 ≤ bs) (hn : 1 ≤ n) :
    totalBatches n bs = totalBatches (n - bs) bs + 1 := by
  unfold totalBatches
  rcases Nat.lt_or_ge n (bs + 1) with hlt | hge
  · have e0 : n - bs = 0 := by omega
    rw [e0]
    have e1 : n + bs - 1 = (n - 1) + bs := by omega
    rw [e1, Nat.add_div_right _ (by omega)]
    rw [Nat.div_eq_of_lt (by omega), Nat.div_eq_of_lt (by omega)]
  · have e1 : n + bs - 1 = (n - 1) + bs := by omega
    have e2 : n - bs + bs - 1 = (n - bs - 1) + bs := by omega
    rw [e1, e2, Nat.add_div_right _ (by omega), Nat.add_div_right _ (by omega)]
    have e3 : n - 1 = (n - bs - 1) + bs := by omega
    rw [e3, Nat.add_div_right _ (by omega)]

theorem chunksOf_nil {α : Type} {bs : Nat} (hbs : 1 ≤ bs) :
    chunksOf bs ([] : List α) = [] := by
  simp [chunksOf, totalBatches_zero hbs]

theorem chunksOf_cons {α : Type} {bs : Nat} (hbs : 1 ≤ bs) {l : List α}
    (hl : 1 ≤ l.length) :
    chunksOf bs l = l.take bs :: chunksOf bs (l.drop bs) := by
  unfold chunksOf
  rw [List.length_drop, totalBatches_succ hbs hl, List.range_succ_eq_map]
  rw [List.map_cons, List.map_map]
  congr 1
  · simp [chunkAt]
  · apply List.map_congr_left
    intro k _
    simp only [Function.comp_apply, chunkAt]
    have e : Nat.succ k * bs = bs + k * bs := by
      rw [Nat.succ_mul]; omega
    rw [e, ← List.drop_drop]

theorem chunksOf_flatten {α : Type} {bs : Nat} (hbs : 1 ≤ bs) :
    ∀ (n : Nat) (l : List α), l.length ≤ n → (chunksOf bs l).flatten = l := by
  intro n
  induction n with
  | zero =>
    intro l hl
    have : l = [] := List.length_eq_zero.mp (Nat.le_zero.mp hl)
    rw [this, chunksOf_nil hbs]
    rfl
  | succ n ih =>
    intro l hl
    cases l with
    | nil => rw [chunksOf_nil hbs]; rfl
    | cons a as =>
      rw [chunksOf_cons hbs (by simp), List.flatten_cons]
      rw [ih ((a :: as).drop bs) (by simp only [List.length_drop]; simp at hl ⊢; omega)]
      exact List.take_append_drop bs (a :: as)

theorem chunksOf_length {α : Type} (bs : Nat) (l : List α) :
    (chunksOf bs l).length = totalBatches l.length bs := by
  simp [chunksOf]

theorem chunksOf_le {α : Type} (bs : Nat) (l : List α) :
    ∀ c ∈ chunksOf bs l, c.length ≤ bs := by
  intro c hc
  obtain ⟨k, _, hk⟩ := List.mem_map.mp hc
  rw [← hk, chunkAt, List.length_take]
  exact inf_le_left

/-! ## Configuration helpers -/

theorem missingVars_nil {key base proj : Option (List Char)}
    (hk : envTruthy key = true) (hb : envTruthy base = true)
    (hp : envTruthy proj = true) : missingVars key base proj = [] := by
  simp [missingVars, hk, hb, hp]

theorem config_ok {key base proj : Option (List Char)}
    (hk : envTruthy key = true) (hb : envTruthy base = true)
    (hp : envTruthy proj = true) :
    get_freeplay_config key base proj
      = .ok (key.getD [], base.getD [], proj.getD []) := by
  simp [get_freeplay_config, missingVars_nil hk hb hp]

theorem secretIsSet_env (v : Option (List Char)) :
    (SecretString.mk v).isSet = envTruthy v := by
  cases v <;> rfl

/-! ## Claim theorems -/

/-- C1: for every non-empty raw string `s`, the default string conversion of
`SecretString(s)` is exactly `"[REDACTED]"` and `.get()` returns `s`
verbatim; for an unset secret (`None` or the empty string) the string
conversion is empty and the truthiness test is false. -/
theorem claim1_secretString (s : List Char) (hs : s ≠ []) :
    (SecretString.mk (some s)).strConv = "[REDACTED]".data
      ∧ (SecretString.mk (some s)).get = some s
      ∧ (SecretString.mk none).strConv = []
      ∧ (SecretString.mk none).isSet = false
      ∧ (SecretString.mk (some [])).strConv = []
      ∧ (SecretString.mk (some [])).isSet = false := by
  refine ⟨?_, rfl, by decide, by decide, by decide, by decide⟩
  simp [SecretString.strConv, SecretString.isSet, hs]

/-- Witness for C1 at the concrete secret `"k"`. -/
theorem claim1_secretString_witness :
    (SecretString.mk (some ("k".data))).strConv = "[REDACTED]".data :=
  (claim1_secretString ("k".data) (by decide)).1

/-- C2: `safe_error_message` first redacts; exactly when the redacted text
is longer than `max_length` the output is its first `max_length` characters
followed by `"... [truncated]"` (so its length is `max_length` plus the
suffix length); otherwise the redacted text is returned unchanged. -/
theorem claim2_truncation (text : List Char) (max_length : Nat) :
    (max_length < (redact_secrets text).length →
      safe_error_message text max_length
          = (redact_secrets text).take max_length ++ truncSuffix
        ∧ (safe_error_message text max_length).length
          = max_length + truncSuffix.length)
    ∧ ((redact_secrets text).length ≤ max_length →
      safe_error_message text max_length = redact_secrets text) := by
  constructor
  · intro h
    have he : safe_error_message text max_length
        = (redact_secrets text).take max_length ++ truncSuffix := by
      simp only [safe_error_message]
      rw [if_pos h]
    refine ⟨he, ?_⟩
    rw [he, List.length_append, List.length_take, inf_eq_left.mpr (by omega)]
  · intro h
    simp only [safe_error_message]
    rw [if_neg (by omega)]

/-- Witness for C2: both branches at concrete inputs (`"hello world"`
truncated at 4, untouched at 500). -/
theorem claim2_truncation_witness :
    (safe_error_message ("hello world".data) 4
        = (redact_secrets ("hello world".data)).take 4 ++ truncSuffix
      ∧ (safe_error_message ("hello world".data) 4).length
        = 4 + truncSuffix.length)
    ∧ safe_error_message ("hello world".data) 500
        = redact_secrets ("hello world".data) :=
  ⟨(claim2_truncation ("hello world".data) 4).1 (by decide),
   (claim2_truncation ("hello world".data) 500).2 (by decide)⟩

/-- C10: the output of `safe_error_message` never exceeds
`max_length + 15` characters, 15 being the length of `"... [truncated]"`. -/
theorem claim10_length_bound (text : List Char) (max_length : Nat) :
    (safe_error_message text max_length).length ≤ max_length + 15
      ∧ truncSuffix.length = 15 := by
  refine ⟨?_, by decide⟩
  by_cases h : max_length < (redact_secrets text).length
  · simp only [safe_error_message]
    rw [if_pos h, List.length_append, List.length_take]
    have h1 : max_length ⊓ (redact_secrets text).length ≤ max_length := inf_le_left
    have h2 : truncSuffix.length = 15 := by decide
    omega
  · simp only [safe_error_message]
    rw [if_neg h]
    omega

/-- The scenario input of the specification. -/
def scenarioInput : List Char :=
  "Error 401: Authorization: Bearer abcdefghij, api_key: zzzzzz".data

/-- What `redact_secrets` actually produces on the scenario input. -/
def scenarioOutput : List Char :=
  "Error 401: Authorization: [REDACTED] [REDACTED], api_key: [REDACTED]".data

/-- C6 counterexample: the sanitised scenario output contains exactly
*three* `[REDACTED]` occurrences, not two (the Bearer rule redacts the
token, then the Authorization rule additionally redacts the residual word
`Bearer`, and the api_key rule redacts `zzzzzz`). -/
theorem claim6_counterexample :
    countSub redactedTxt (safe_error_message scenarioInput 500) = 3
      ∧ ¬ countSub redactedTxt (safe_error_message scenarioInput 500) = 2 := by
  decide

/-- C6 amended: sanitising the scenario input yields
`"Error 401: Authorization: [REDACTED] [REDACTED], api_key: [REDACTED]"`,
which contains exactly three `[REDACTED]` substitutions and zero
occurrences of `"abcdefghij"` or `"zzzzzz"`. -/
theorem claim6_amended :
    safe_error_message scenarioInput 500 = scenarioOutput
      ∧ countSub redactedTxt scenarioOutput = 3
      ∧ containsSub ("abcdefghij".data) scenarioOutput = false
      ∧ containsSub ("zzzzzz".data) scenarioOutput = false := by
  decide

/-- The rule order with the Authorization rule moved before the Bearer
rule (a permutation of the listed order). -/
def swappedRules : List Pat := [.auth, .bearer, .apiKey, .secretKw, .tokenKw, .fpKey]

/-- A witness text on which rule order matters. -/
def orderDemo : List Char := "Authorization: Bearer abc".data

/-- C4 counterexample: applying the rules with the Authorization rule first
on `"Authorization: Bearer abc"` yields a *different* result than the
listed order — and it leaks the secret tail `abc` — so the order of the
rule table affects the output, not only performance. -/
theorem claim4_counterexample :
    swappedRules.Perm patList
      ∧ applyRules swappedRules orderDemo ≠ applyRules patList orderDemo
      ∧ containsSub ("abc".data) (applyRules swappedRules orderDemo) = true
      ∧ containsSub ("abc".data) (applyRules patList orderDemo) = false := by
  refine ⟨by decide, by decide, by decide, by decide⟩

/-- C4 amended: rule order does affect the output when one pattern's match
overlaps another's (see the counterexample); on inputs where no pattern
matches at any position, every permutation of the rule table yields the
same result as the listed order (the input unchanged). -/
theorem claim4_amended (x : List Char) (order : List Pat)
    (hx : matchless x = true) (hperm : order.Perm patList) :
    applyRules order x = redact_secrets x := by
  rw [redact_matchless hx]
  exact applyRules_noMatch order x
    (fun p hp => List.all_eq_true.mp hx p (hperm.mem_iff.mp hp))

/-- Witness for C4 (amended) at `"hello"` and the swapped order. -/
theorem claim4_amended_witness :
    applyRules swappedRules ("hello".data) = redact_secrets ("hello".data) :=
  claim4_amended ("hello".data) swappedRules (by decide) (by decide)

/-- C5: for every string free of secret-like patterns (no rule of the table
matches at any position), `safe_error_message` is idempotent at any fixed
`max_length`: sanitising twice equals sanitising once, and in particular no
double truncation occurs. -/
theorem claim5_idempotent (x : List Char) (max_length : Nat)
    (hx : matchless x = true) :
    safe_error_message (safe_error_message x max_length) max_length
      = safe_error_message x max_length := by
  have hred : redact_secrets x = x := redact_matchless hx
  by_cases hlen : max_length < x.length
  · have hsafe1 : safe_error_message x max_length
        = x.take max_length ++ truncSuffix := by
      simp only [safe_error_message]
      rw [hred, if_pos hlen]
    have hyt : (x.take max_length ++ truncSuffix).take max_length
        = x.take max_length := by
      rw [List.take_append_of_le_length
        (by rw [List.length_take]; exact le_inf (le_refl _) (by omega))]
      simp [List.take_take]
    have hylen : (x.take max_length ++ truncSuffix).length
        = max_length + truncSuffix.length := by
      rw [List.length_append, List.length_take,
        inf_eq_left.mpr (by omega : max_length ≤ x.length)]
    obtain ⟨hT, hL⟩ := applyRules_take hx (by omega : max_length ≤ x.length)
      patList (x.take max_length ++ truncSuffix) (fun q hq => hq) hyt
      (by rw [hylen]; exact Nat.lt_add_of_pos_right (by decide))
    have hgt : max_length
        < (redact_secrets (x.take max_length ++ truncSuffix)).length := hL
    have hTake : (redact_secrets (x.take max_length ++ truncSuffix)).take max_length
        = x.take max_length := hT
    rw [hsafe1]
    simp only [safe_error_message]
    rw [if_pos hgt, hTake]
  · push_neg at hlen
    have hsafe1 : safe_error_message x max_length = x := by
      simp only [safe_error_message]
      rw [hred, if_neg (by omega)]
    rw [hsafe1, hsafe1]

/-- Witness for C5 at the pattern-free string `"hello"` and
`max_length = 2` (which forces truncation on both applications). -/
theorem claim5_idempotent_witness :
    safe_error_message (safe_error_message ("hello".data) 2) 2
      = safe_error_message ("hello".data) 2 :=
  claim5_idempotent ("hello".data) 2 (by decide)

/-- The response body used to exhibit the unredacted print of
`batch_operations.py`. -/
def leakBody : List Char := "api_key: abc123".data

/-- C3 counterexample: on a failing chunk, `batch_create_test_cases` prints
the raw response body (`"  Response: api_key: abc123"`) to stderr — the
secret `abc123` reaches the output — whereas the redaction function would
have produced `"api_key: [REDACTED]"`.  So not every printed failure text
passes through the redaction function. -/
theorem claim3_counterexample :
    (batch_create_test_cases (some ("k".data)) (some ("b".data)) (some ("p".data))
        ([0] : List Nat) 1 true (fun _ => HttpOutcome.resp 401 leakBody 0)).lines
      = [OutLine.err (failStatusLine 1 1 401), OutLine.err (respRawLine leakBody)]
    ∧ containsSub ("abc123".data) (respRawLine leakBody) = true
    ∧ ¬ respRawLine leakBody = respSafeLine leakBody
    ∧ safe_error_message leakBody 500 = "api_key: [REDACTED]".data := by
  decide

/-- C3 amended: in `import_testcases.py` the failure response body *is*
passed through `safe_error_message` before being printed; in
`batch_operations.py` the raw `response.text` is printed to stderr without
redaction (see the counterexample). -/
theorem claim3_amended {α : Type} (items : List α) (api_key : SecretString)
    (bs : Nat) (resp : Nat → HttpOutcome) :
    ∀ i st txt d, i < totalBatches items.length bs →
      resp i = .resp st txt d → ¬ st = 201 →
      OutLine.err (respSafeLine txt)
        ∈ (batch_upload items api_key bs resp).lines := by
  intro i st txt d hi hresp hst
  simp only [batch_upload]
  apply List.mem_append_left
  refine List.mem_flatMap.mpr ⟨i, List.mem_range.mpr hi, ?_⟩
  rw [hresp]
  simp [uploadIterLines, hst]

/-- Witness for C3 (amended): the sanitized body is printed on a concrete
failing upload. -/
theorem claim3_amended_witness :
    OutLine.err (respSafeLine leakBody)
      ∈ (batch_upload ([0] : List Nat) (SecretString.mk (some ("k".data))) 1
          (fun _ => HttpOutcome.resp 500 leakBody 0)).lines :=
  claim3_amended [0] (SecretString.mk (some ("k".data))) 1
    (fun _ => HttpOutcome.resp 500 leakBody 0) 0 500 leakBody 0
    (by decide) rfl (by decide)

/-- C7 counterexample: with `verbose=False` (a parameter of both batch
functions, default `True`), a failing chunk produces *no* printed line at
all — the error is silently swallowed — so the claim does not hold for
every run of the batch operations. -/
theorem claim7_counterexample :
    (batch_create_test_cases (some ("k".data)) (some ("b".data)) (some ("p".data))
        ([0] : List Nat) 1 false (fun _ => HttpOutcome.resp 500 ("boom".data) 0)).lines
      = ([] : List OutLine)
    ∧ (batch_create_test_cases (some ("k".data)) (some ("b".data)) (some ("p".data))
        ([0] : List Nat) 1 false (fun _ => HttpOutcome.resp 500 ("boom".data) 0)).sent.length
      = 1 := by
  decide

/-- C7 amended: with `verbose=True` (the default), every failing chunk —
non-success status or request exception — produces a stderr line naming
its batch number, in both `batch_create_test_cases` and
`batch_delete_test_cases`; and every chunk is sent regardless of earlier
failures (processing continues, one request per chunk). -/
theorem claim7_amended {α : Type} (key base proj : Option (List Char))
    (hk : envTruthy key = true) (hb : envTruthy base = true)
    (hp : envTruthy proj = true)
    (items : List α) (bs : Nat) (resp : Nat → HttpOutcome) :
    (batch_create_test_cases key base proj items bs true resp).sent.length
        = totalBatches items.length bs
    ∧ (batch_delete_test_cases key base proj items bs true resp).sent.length
        = totalBatches items.length bs
    ∧ (∀ i st txt d, i < totalBatches items.length bs →
        resp i = .resp st txt d → ¬ st = 201 →
        OutLine.err (failStatusLine (i + 1) (totalBatches items.length bs) st)
            ∈ (batch_create_test_cases key base proj items bs true resp).lines
          ∧ OutLine.err (respRawLine txt)
            ∈ (batch_create_test_cases key base proj items bs true resp).lines)
    ∧ (∀ i msg, i < totalBatches items.length bs → resp i = .exc msg →
        OutLine.err (failExcLine (i + 1) (totalBatches items.length bs) msg)
          ∈ (batch_create_test_cases key base proj items bs true resp).lines)
    ∧ (∀ i st txt d, i < totalBatches items.length bs →
        resp i = .resp st txt d → ¬ st = 200 →
        OutLine.err (failStatusLine (i + 1) (totalBatches items.length bs) st)
          ∈ (batch_delete_test_cases key base proj items bs true resp).lines)
    ∧ (∀ i msg, i < totalBatches items.length bs → resp i = .exc msg →
        OutLine.err (failExcLine (i + 1) (totalBatches items.length bs) msg)
          ∈ (batch_delete_test_cases key base proj items bs true resp).lines) := by
  have hc := config_ok hk hb hp
  refine ⟨?_, ?_, ?_, ?_, ?_, ?_⟩
  · simp [batch_create_test_cases, hc, chunksOf_length]
  · simp [batch_delete_test_cases, hc, chunksOf_length]
  · intro i st txt d hi hresp hst
    constructor <;>
      (simp only [batch_create_test_cases, hc]
       refine List.mem_flatMap.mpr ⟨i, List.mem_range.mpr hi, ?_⟩
       rw [hresp]
       simp [createIterLines, hst])
  · intro i msg hi hresp
    simp only [batch_create_test_cases, hc]
    refine List.mem_flatMap.mpr ⟨i, List.mem_range.mpr hi, ?_⟩
    rw [hresp]
    simp [createIterLines]
  · intro i st txt d hi hresp hst
    simp only [batch_delete_test_cases, hc]
    refine List.mem_flatMap.mpr ⟨i, List.mem_range.mpr hi, ?_⟩
    rw [hresp]
    simp [deleteIterLines, hst]
  · intro i msg hi hresp
    simp only [batch_delete_test_cases, hc]
    refine List.mem_flatMap.mpr ⟨i, List.mem_range.mpr hi, ?_⟩
    rw [hresp]
    simp [deleteIterLines]

/-- Witness for C7 (amended): two one-element chunks, the first failing
with status 500, on a concrete run. -/
theorem claim7_amended_witness :
    (batch_create_test_cases (some ("k".data)) (some ("b".data)) (some ("p".data))
        ([0, 1] : List Nat) 1 true
        (fun _ => HttpOutcome.resp 500 ("x".data) 0)).sent.length
      = totalBatches ([0, 1] : List Nat).length 1
    ∧ OutLine.err (failStatusLine 1 (totalBatches ([0, 1] : List Nat).length 1) 500)
      ∈ (batch_create_test_cases (some ("k".data)) (some ("b".data)) (some ("p".data))
          ([0, 1] : List Nat) 1 true
          (fun _ => HttpOutcome.resp 500 ("x".data) 0)).lines := by
  have h := claim7_amended (α := Nat) (some ("k".data)) (some ("b".data))
    (some ("p".data)) (by decide) (by decide) (by decide) [0, 1] 1
    (fun _ => HttpOutcome.resp 500 ("x".data) 0)
  exact ⟨h.1, (h.2.2.1 0 500 ("x".data) 0 (by decide) rfl (by decide)).1⟩

/-- C8 counterexample: nothing clamps `batch_size` to 100 inside the batch
functions; with `batch_size = 101` and 101 items a single chunk of 101
items (more than 100) is sent in one request. -/
theorem claim8_counterexample :
    (batch_create_test_cases (some ("k".data)) (some ("b".data)) (some ("p".data))
        (List.range 101) 101 true (fun _ => HttpOutcome.resp 201 [] 0)).sent
      = [List.range 101]
    ∧ 100 < (List.range 101).length := by
  decide

/-- C8 amended: for every batch size `≥ 1`, both `batch_create_test_cases`
(with valid configuration) and `batch_upload` send exactly the consecutive
chunks of at most `batch_size` items each (at most 100 whenever
`batch_size ≤ 100`, as with the default 100), covering every item exactly
once in the original order, one HTTP call per chunk, and the number of
chunks is `⌈n / batch_size⌉`. -/
theorem claim8_amended {α : Type} (items : List α) (bs : Nat) (hbs : 1 ≤ bs)
    (key base proj : Option (List Char))
    (hk : envTruthy key = true) (hb : envTruthy base = true)
    (hp : envTruthy proj = true)
    (verbose : Bool) (resp : Nat → HttpOutcome) (api_key : SecretString) :
    (batch_create_test_cases key base proj items bs verbose resp).sent
        = chunksOf bs items
    ∧ (batch_upload items api_key bs resp).sent = chunksOf bs items
    ∧ (chunksOf bs items).flatten = items
    ∧ (∀ c ∈ chunksOf bs items, c.length ≤ bs)
    ∧ (chunksOf bs items).length = totalBatches items.length bs := by
  have hc := config_ok hk hb hp
  exact ⟨by simp [batch_create_test_cases, hc], rfl,
    chunksOf_flatten hbs items.length items (le_refl _),
    chunksOf_le bs items, chunksOf_length bs items⟩

/-- Witness for C8 (amended) on three items with batch size 2. -/
theorem claim8_amended_witness :
    (batch_create_test_cases (some ("k".data)) (some ("b".data)) (some ("p".data))
        ([7, 8, 9] : List Nat) 2 true (fun _ => HttpOutcome.resp 201 [] 0)).sent
      = chunksOf 2 ([7, 8, 9] : List Nat)
    ∧ (chunksOf 2 ([7, 8, 9] : List Nat)).flatten = [7, 8, 9] := by
  have h := claim8_amended (α := Nat) [7, 8, 9] 2 (by decide) (some ("k".data))
    (some ("b".data)) (some ("p".data)) (by decide) (by decide) (by decide)
    true (fun _ => HttpOutcome.resp 201 [] 0) (SecretString.mk (some ("k".data)))
  exact ⟨h.1, h.2.2.1⟩

/-- C9 counterexample: with both `FREEPLAY_API_KEY` and `FREEPLAY_API_BASE`
unset, the environment check of `import_testcases.main` prints only the
first missing name and exits — the printed line does not name
`FREEPLAY_API_BASE` — so the loader does not print the names of *all*
missing variables on that path. -/
theorem claim9_counterexample :
    import_env_check none none (some ("p".data))
        = some (notSetLine ("FREEPLAY_API_KEY".data), 1)
    ∧ envTruthy none = false
    ∧ containsSub ("FREEPLAY_API_BASE".data)
        (notSetLine ("FREEPLAY_API_KEY".data)) = false := by
  decide

/-- C9 amended: `get_freeplay_config` lists *all* missing variable names in
one stderr message and exits 1 before any request is sent (a
`batch_create_test_cases` run with missing configuration sends no request
and carries exit code 1), and returns the three values unchanged when all
are present; the environment check of `import_testcases.main`, by
contrast, exits 1 after printing only the *first* missing variable's
name. -/
theorem claim9_amended :
    (∀ kv bv pv : List Char, kv ≠ [] → bv ≠ [] → pv ≠ [] →
        get_freeplay_config (some kv) (some bv) (some pv) = .ok (kv, bv, pv))
    ∧ (∀ key base proj : Option (List Char), missingVars key base proj ≠ [] →
        get_freeplay_config key base proj
            = .error (missingMsg (missingVars key base proj), 1)
          ∧ (∀ (items : List Nat) (bs : Nat) (verbose : Bool)
              (resp : Nat → HttpOutcome),
              (batch_create_test_cases key base proj items bs verbose resp).sent
                  = []
                ∧ (batch_create_test_cases key base proj items bs verbose
                    resp).exitCode = some 1))
    ∧ (∀ key base proj : Option (List Char),
        import_env_check key base proj
          = match missingVars key base proj with
            | [] => none
            | v :: _ => some (notSetLine v, 1)) := by
  refine ⟨?_, ?_, ?_⟩
  · intro kv bv pv hk hb hp
    have ek : envTruthy (some kv) = true := by simp [envTruthy, hk]
    have eb : envTruthy (some bv) = true := by simp [envTruthy, hb]
    have ep : envTruthy (some pv) = true := by simp [envTruthy, hp]
    rw [config_ok ek eb ep]
    rfl
  · intro key base proj hne
    have hcfg : get_freeplay_config key base proj
        = .error (missingMsg (missingVars key base proj), 1) := by
      simp only [get_freeplay_config]
      rw [if_neg (by simpa [List.isEmpty_iff] using hne)]
    refine ⟨hcfg, fun items bs verbose resp => ?_⟩
    constructor <;> simp [batch_create_test_cases, hcfg]
  · intro key base proj
    cases hkey : envTruthy key with
    | false => simp [import_env_check, missingVars, secretIsSet_env, hkey]
    | true =>
      cases hbase : envTruthy base with
      | false => simp [import_env_check, missingVars, secretIsSet_env, hkey, hbase]
      | true =>
        cases hproj : envTruthy proj with
        | false =>
          simp [import_env_check, missingVars, secretIsSet_env, hkey, hbase, hproj]
        | true =>
          simp [import_env_check, missingVars, secretIsSet_env, hkey, hbase, hproj]

/-- Witness for C9 (amended): a fully-present environment is returned
verbatim, and a fully-missing one is rejected with the joined message and
exit code 1. -/
theorem claim9_amended_witness :
    get_freeplay_config (some ("k".data)) (some ("b".data)) (some ("p".data))
        = .ok ("k".data, "b".data, "p".data)
    ∧ get_freeplay_config none none none
        = .error (missingMsg (missingVars none none none), 1) := by
  exact ⟨claim9_amended.1 ("k".data) ("b".data) ("p".data)
      (by decide) (by decide) (by decide),
    (claim9_amended.2.1 none none none (by decide)).1⟩
